import Mathlib

/-!
# Verification of the multi-cursor AI generation core

Shallow embedding of the repository's core subsystems and proofs of the
frozen claims about them:

* `src/net/backoff.ts` — exponential backoff with full jitter and the
  retry driver (`exponentialJitter`, `retryWithBackoff`);
* the token-bucket scheduler (`TokenBucketPool`) — admission, refill,
  limit updates, server hints, cancellation and disposal;
* `src/net/httpClient.ts` — the retry loop of `HttpClient.generate`
  and its classification of abort errors;
* `src/edit/insert.ts` — the anchor-coordinated `StreamInserter`:
  anchor advancement over multi-line text, sibling re-basing,
  the per-document mutation queue, and `restoreOriginal`.

JavaScript numbers are modelled as rationals (`ℚ`), `Math.floor` as
`Int.floor`.  Strings are modelled as `List Char`; documents as lists of
lines (`List (List Char)`), each line holding no line-break characters.
Promise results are modelled with `Except`.
-/

set_option maxHeartbeats 1000000

namespace MCAI

/-! ## Backoff policy (`src/net/backoff.ts`)

```ts
export function exponentialJitter(attempt: number, baseMs: number, maxMs: number): number {
  const a = Math.max(1, Math.floor(attempt));
  const exp = Math.min(maxMs, baseMs * Math.pow(2, a - 1));
  const sleep = Math.floor(Math.random() * exp);
  return Math.max(0, Math.min(sleep, maxMs));
}
```
The random draw `Math.random()` is passed explicitly as `r ∈ [0, 1)`. -/

def exponentialJitter (attempt baseMs maxMs r : ℚ) : ℚ :=
  let a : ℤ := max 1 ⌊attempt⌋
  let expCap : ℚ := min maxMs (baseMs * 2 ^ (a - 1).toNat)
  let sleep : ℚ := ((⌊r * expCap⌋ : ℤ) : ℚ)
  max 0 (min sleep maxMs)

/-- `retryWithBackoff` from `backoff.ts`, for an unsignaled cancel signal
(the `signal?.aborted` checks are constant `false` and the backoff waits
always complete).  The fallible operation is `fn attempt`; the result
records how many times `fn` was invoked, the list of `attempt` values
passed to `onRetry` (in call order), and the final outcome.

```ts
let attempt = 0;
while (true) {
  attempt += 1;
  try { return await fn(attempt, signal); }
  catch (err) {
    const can = attempt <= maxRetries && shouldRetry(err);
    if (!can) { throw err; }
    onRetry?.({ attempt, delay, error: err });
    ...wait...
  }
}
```
`remaining` is the number of retries still allowed, i.e.
`maxRetries + 1 - attempt`, so `attempt <= maxRetries ↔ remaining ≥ 1`. -/
def retryFrom {ε α : Type} (fn : Nat → Except ε α) (shouldRetry : ε → Bool) :
    Nat → Nat → Nat × List Nat × Except ε α
  | attempt, remaining =>
    match fn attempt with
    | Except.ok v => (1, ([], Except.ok v))
    | Except.error e =>
      match remaining with
      | 0 => (1, ([], Except.error e))
      | Nat.succ rem =>
        if shouldRetry e then
          let rest := retryFrom fn shouldRetry (attempt + 1) rem
          (rest.1 + 1, (attempt :: rest.2.1, rest.2.2))
        else (1, ([], Except.error e))

def retryWithBackoff {ε α : Type} (fn : Nat → Except ε α) (maxRetries : Nat)
    (shouldRetry : ε → Bool) : Nat × List Nat × Except ε α :=
  retryFrom fn shouldRetry 1 maxRetries

/-! ### Claims C7 and C8 -/

/-- **C7**: for all inputs `attempt`, `baseMs ≥ 0`, `maxMs ≥ 0` and every
random draw `r ∈ [0,1)`, `exponentialJitter` treats `attempt < 1` as
`attempt = 1`, and its result lies in
`[0, min(maxMs, baseMs * 2^(attempt-1))]` (with the clamped exponent);
in particular it is always `≥ 0` and never exceeds `maxMs`. -/
theorem exponentialJitter_bounds (attempt baseMs maxMs r : ℚ)
    (hb : 0 ≤ baseMs) (hm : 0 ≤ maxMs) (hr0 : 0 ≤ r) (hr1 : r < 1) :
    (attempt < 1 →
      exponentialJitter attempt baseMs maxMs r = exponentialJitter 1 baseMs maxMs r) ∧
    0 ≤ exponentialJitter attempt baseMs maxMs r ∧
    exponentialJitter attempt baseMs maxMs r ≤
      min maxMs (baseMs * 2 ^ ((max 1 ⌊attempt⌋ : ℤ) - 1).toNat) ∧
    exponentialJitter attempt baseMs maxMs r ≤ maxMs := by
  refine ⟨?_, ?_, ?_, ?_⟩
  · intro hlt
    have h1 : ⌊attempt⌋ < 1 := by
      exact_mod_cast Int.floor_lt.2 (by exact_mod_cast hlt)
    have hmax : max 1 ⌊attempt⌋ = 1 := by omega
    have hmax1 : max 1 ⌊(1 : ℚ)⌋ = 1 := by norm_num
    simp only [exponentialJitter, hmax, hmax1]
  all_goals
    have hcap : (0 : ℚ) ≤ min maxMs (baseMs * 2 ^ ((max 1 ⌊attempt⌋ : ℤ) - 1).toNat) :=
      le_min hm (mul_nonneg hb (pow_nonneg (by norm_num) _))
    have hsleep0 : (0 : ℚ) ≤ ((⌊r * min maxMs (baseMs * 2 ^ ((max 1 ⌊attempt⌋ : ℤ) - 1).toNat)⌋ : ℤ) : ℚ) := by
      have : (0 : ℤ) ≤ ⌊r * min maxMs (baseMs * 2 ^ ((max 1 ⌊attempt⌋ : ℤ) - 1).toNat)⌋ :=
        Int.floor_nonneg.2 (mul_nonneg hr0 hcap)
      exact_mod_cast this
    have hsleep_le : ((⌊r * min maxMs (baseMs * 2 ^ ((max 1 ⌊attempt⌋ : ℤ) - 1).toNat)⌋ : ℤ) : ℚ) ≤
        min maxMs (baseMs * 2 ^ ((max 1 ⌊attempt⌋ : ℤ) - 1).toNat) := by
      refine le_trans (Int.floor_le _) ?_
      calc r * min maxMs (baseMs * 2 ^ ((max 1 ⌊attempt⌋ : ℤ) - 1).toNat)
          ≤ 1 * min maxMs (baseMs * 2 ^ ((max 1 ⌊attempt⌋ : ℤ) - 1).toNat) :=
            mul_le_mul_of_nonneg_right hr1.le hcap
        _ = _ := one_mul _
  · simp only [exponentialJitter]
    exact le_max_left _ _
  · simp only [exponentialJitter]
    refine max_le hcap (le_min (min_le_right _ _)
      (le_trans (min_le_left _ _) (le_trans hsleep_le (min_le_right _ _))))
  · simp only [exponentialJitter]
    refine max_le hm (le_trans (min_le_right _ _) le_rfl)

/-- Witness for C7 at `attempt = 0, baseMs = 100, maxMs = 2000, r = 1/2`. -/
theorem exponentialJitter_bounds_witness :
    0 ≤ exponentialJitter 0 100 2000 (1/2) ∧
    exponentialJitter 0 100 2000 (1/2) ≤
      min 2000 (100 * 2 ^ ((max 1 ⌊(0 : ℚ)⌋ : ℤ) - 1).toNat) ∧
    exponentialJitter 0 100 2000 (1/2) ≤ 2000 := by
  have h := exponentialJitter_bounds 0 100 2000 (1/2)
    (by norm_num) (by norm_num) (by norm_num) (by norm_num)
  exact ⟨h.2.1, h.2.2.1, h.2.2.2⟩

/-- **C8**: with `maxRetries = 2`, the default `shouldRetry` (always true)
and an unsignaled cancel signal, an always-failing operation is invoked
exactly 3 times, `onRetry` fires for attempts `[1, 2]` in order, and the
error of the third invocation is propagated. -/
theorem retryWithBackoff_always_fail {ε α : Type} (e : Nat → ε) :
    retryWithBackoff (α := α) (fun n => Except.error (e n)) 2 (fun _ => true) =
      (3, ([1, 2], Except.error (e 3))) := by
  simp [retryWithBackoff, retryFrom]

/-! ## Token bucket scheduler (`TokenBucketPool`, `src/unnamed/part_002`)

State of the pool; times (`now`, `lastRefillTs`, `cooldownUntil`) are
milliseconds-since-epoch as rationals.  A queued task is identified by
its `id`; its `fn`/`resolve`/`reject`/`controller` are represented by the
events the pool emits (`PoolEvent`): `ctrlAborted i` models
`t.controller.abort()`, `rejectedAborted i` models
`t.reject(new Error('aborted'))`, and `started i` models admission
(popping the task and invoking `t.fn`). -/

structure SchedTask where
  id : Nat
deriving Repr, DecidableEq

inductive PoolEvent
  | ctrlAborted (id : Nat)
  | rejectedAborted (id : Nat)
  | started (id : Nat)
deriving Repr, DecidableEq

structure PoolState where
  maxConcurrency : ℤ
  maxPerMinute : ℤ
  running : Nat
  queue : List SchedTask
  tokens : ℚ
  capacity : ℚ
  lastRefillTs : ℚ
  cooldownUntil : ℚ
  dynamicProbe : Bool
  refillActive : Bool
deriving Repr, DecidableEq

/-- The constructor: clamps both limits to `max(1, floor(·))`, fills the
bucket (`tokens = capacity = maxPerMinute`) and starts the refill timer. -/
def mkPool (maxConcurrency maxPerMinute : ℚ) (dynamicProbe : Bool) (now : ℚ) : PoolState :=
  let mc : ℤ := max 1 ⌊maxConcurrency⌋
  let rpm : ℤ := max 1 ⌊maxPerMinute⌋
  { maxConcurrency := mc, maxPerMinute := rpm, running := 0, queue := [],
    tokens := (rpm : ℚ), capacity := (rpm : ℚ), lastRefillTs := now,
    cooldownUntil := 0, dynamicProbe := dynamicProbe, refillActive := true }

/-- `canStart`: `running < maxConcurrency ∧ now ≥ cooldownUntil ∧ tokens ≥ 1 ∧ queue ≠ []`. -/
def canStart (s : PoolState) (now : ℚ) : Bool :=
  if s.maxConcurrency ≤ (s.running : ℤ) then false
  else if now < s.cooldownUntil then false
  else if s.tokens < 1 then false
  else !s.queue.isEmpty

/-- The admission loop of `maybeStart`: while `canStart`, pop the queue
front, consume one token (clamped at 0), increment `running` and start
the task.  The loop runs at most `queue.length` times, given as fuel. -/
def maybeStartAux : Nat → PoolState → ℚ → PoolState × List PoolEvent
  | 0, s, _ => (s, [])
  | fuel + 1, s, now =>
    if canStart s now then
      match s.queue with
      | [] => (s, [])
      | t :: rest =>
        let s' := { s with queue := rest, tokens := max 0 (s.tokens - 1),
                           running := s.running + 1 }
        let res := maybeStartAux fuel s' now
        (res.1, PoolEvent.started t.id :: res.2)
    else (s, [])

def maybeStart (s : PoolState) (now : ℚ) : PoolState × List PoolEvent :=
  maybeStartAux s.queue.length s now

/-- The periodic refill tick: smooth proportional refill capped at
`capacity`, then re-attempt admission. -/
def refill (s : PoolState) (now : ℚ) : PoolState × List PoolEvent :=
  let elapsedMs := now - s.lastRefillTs
  let perMs := (s.maxPerMinute : ℚ) / 60000
  let s' := { s with lastRefillTs := now,
                     tokens := min s.capacity (s.tokens + perMs * elapsedMs) }
  maybeStart s' now

/-- `updateLimits`: floor-clamp both caps, set `capacity := newRpm`,
lower `tokens` to at most the new capacity, re-attempt admission. -/
def updateLimits (s : PoolState) (limConcurrency limPerMinute : ℚ) (now : ℚ) :
    PoolState × List PoolEvent :=
  let mc : ℤ := max 1 ⌊limConcurrency⌋
  let rpm : ℤ := max 1 ⌊limPerMinute⌋
  let s' := { s with maxConcurrency := mc, maxPerMinute := rpm,
                     capacity := (rpm : ℚ), tokens := min s.tokens (rpm : ℚ) }
  maybeStart s' now

structure ServerHint where
  retryAfterMs : Option ℚ
  limitPerMinuteHint : Option ℚ

/-- `applyServerHint`: extend the cooldown monotonically on a
`Retry-After` hint; with dynamic probing, adopt a differing per-minute
hint through `updateLimits` (passing the already-floored value, with the
current concurrency cap unchanged). -/
def applyServerHint (s : PoolState) (hint : ServerHint) (now : ℚ) :
    PoolState × List PoolEvent :=
  let s1 :=
    match hint.retryAfterMs with
    | some ra =>
      if 0 < ra then
        (if s.cooldownUntil < now + ra then { s with cooldownUntil := now + ra } else s)
      else s
    | none => s
  match hint.limitPerMinuteHint with
  | some lh =>
    if s1.dynamicProbe ∧ 0 < lh then
      let adjusted : ℤ := max 1 ⌊lh⌋
      if adjusted ≠ s1.maxPerMinute then
        updateLimits s1 (s1.maxConcurrency : ℚ) (adjusted : ℚ) now
      else (s1, [])
    else (s1, [])
  | none => (s1, [])

/-- `schedule` with an unsignaled per-task cancel signal: enqueue the
task, then attempt admission. -/
def schedule (s : PoolState) (t : SchedTask) (now : ℚ) : PoolState × List PoolEvent :=
  maybeStart { s with queue := s.queue ++ [t] } now

/-- `cancelAll()`: for each queued task, abort its controller and reject
its promise with `aborted`; then empty the queue.  Running tasks are
untouched. -/
def cancelAll (s : PoolState) : PoolState × List PoolEvent :=
  ({ s with queue := [] },
   s.queue.flatMap (fun t => [PoolEvent.ctrlAborted t.id, PoolEvent.rejectedAborted t.id]))

/-- `dispose()`: stop the refill timer, abort each queued task's
controller, and empty the queue.  (Note: unlike `cancelAll`, the queued
tasks' promises are never rejected.) -/
def dispose (s : PoolState) : PoolState × List PoolEvent :=
  ({ s with refillActive := false, queue := [] },
   s.queue.map (fun t => PoolEvent.ctrlAborted t.id))

def rejectedIds (evts : List PoolEvent) : List Nat :=
  evts.filterMap (fun e =>
    match e with
    | PoolEvent.rejectedAborted i => some i
    | _ => none)

def startedIds (evts : List PoolEvent) : List Nat :=
  evts.filterMap (fun e =>
    match e with
    | PoolEvent.started i => some i
    | _ => none)

/-- Invariant of the token bucket: `0 ≤ tokens ≤ capacity`, with the
auxiliary field fact `1 ≤ maxPerMinute` needed for its preservation. -/
def PoolInv (s : PoolState) : Prop :=
  0 ≤ s.tokens ∧ s.tokens ≤ s.capacity ∧ 1 ≤ s.maxPerMinute

theorem poolInv_maybeStartAux (fuel : Nat) (s : PoolState) (now : ℚ)
    (h : PoolInv s) : PoolInv (maybeStartAux fuel s now).1 := by
  induction fuel generalizing s with
  | zero => exact h
  | succ fuel ih =>
    rw [maybeStartAux]
    split
    · match hq : s.queue with
      | [] => exact h
      | t :: rest =>
        refine ih _ ⟨le_max_left _ _, max_le ?_ ?_, h.2.2⟩
        · exact le_trans h.1 h.2.1
        · have := h.2.1
          linarith
    · exact h

theorem poolInv_maybeStart (s : PoolState) (now : ℚ) (h : PoolInv s) :
    PoolInv (maybeStart s now).1 :=
  poolInv_maybeStartAux _ s now h

theorem poolInv_mkPool (mc rpm : ℚ) (dp : Bool) (now : ℚ) :
    PoolInv (mkPool mc rpm dp now) := by
  have h1 : (1 : ℤ) ≤ max 1 ⌊rpm⌋ := le_max_left _ _
  have h1q : (1 : ℚ) ≤ ((max 1 ⌊rpm⌋ : ℤ) : ℚ) := by exact_mod_cast h1
  exact ⟨by simp [mkPool], by simp [mkPool], by simp [mkPool]⟩

theorem poolInv_refill (s : PoolState) (now : ℚ) (h : PoolInv s)
    (hts : s.lastRefillTs ≤ now) : PoolInv (refill s now).1 := by
  rw [refill]
  refine poolInv_maybeStart _ _ ⟨?_, min_le_left _ _, h.2.2⟩
  have hrpm : (1 : ℚ) ≤ (s.maxPerMinute : ℚ) := by exact_mod_cast h.2.2
  have hperMs : 0 ≤ (s.maxPerMinute : ℚ) / 60000 := by
    apply div_nonneg <;> linarith
  have hadd : 0 ≤ (s.maxPerMinute : ℚ) / 60000 * (now - s.lastRefillTs) :=
    mul_nonneg hperMs (by linarith)
  exact le_min (le_trans h.1 h.2.1) (by linarith [h.1])

theorem poolInv_updateLimits (s : PoolState) (mc rpm now : ℚ) (h : PoolInv s) :
    PoolInv (updateLimits s mc rpm now).1 := by
  rw [updateLimits]
  have h1 : (1 : ℤ) ≤ max 1 ⌊rpm⌋ := le_max_left _ _
  have h1q : (1 : ℚ) ≤ ((max 1 ⌊rpm⌋ : ℤ) : ℚ) := by exact_mod_cast h1
  exact poolInv_maybeStart _ _ ⟨le_min h.1 (by linarith), min_le_right _ _, h1⟩

theorem poolInv_applyServerHint (s : PoolState) (hint : ServerHint) (now : ℚ)
    (h : PoolInv s) : PoolInv (applyServerHint s hint now).1 := by
  rw [applyServerHint]
  have hs1 : PoolInv (match hint.retryAfterMs with
      | some ra =>
        if 0 < ra then
          (if s.cooldownUntil < now + ra then { s with cooldownUntil := now + ra } else s)
        else s
      | none => s) := by
    match hint.retryAfterMs with
    | none => exact h
    | some ra =>
      dsimp only
      split
      · split
        · exact h
        · exact h
      · exact h
  match hint.limitPerMinuteHint with
  | none => exact hs1
  | some lh =>
    dsimp only
    split
    · split
      · exact poolInv_updateLimits _ _ _ _ hs1
      · exact hs1
    · exact hs1

/-- **C3**: the token-bucket invariant `0 ≤ tokens ≤ capacity` (with the
auxiliary field fact `1 ≤ maxPerMinute`, required for preservation) is
established by the constructor and preserved by the refill tick (under
clock monotonicity `lastRefillTs ≤ now`), by the admission loop
(`maybeStart`), by `updateLimits`, and by `applyServerHint`. -/
theorem tokenBucket_invariant :
    (∀ (mc rpm : ℚ) (dp : Bool) (now : ℚ), PoolInv (mkPool mc rpm dp now)) ∧
    (∀ (s : PoolState) (now : ℚ), PoolInv s → s.lastRefillTs ≤ now →
      PoolInv (refill s now).1) ∧
    (∀ (s : PoolState) (now : ℚ), PoolInv s → PoolInv (maybeStart s now).1) ∧
    (∀ (s : PoolState) (mc rpm now : ℚ), PoolInv s →
      PoolInv (updateLimits s mc rpm now).1) ∧
    (∀ (s : PoolState) (hint : ServerHint) (now : ℚ), PoolInv s →
      PoolInv (applyServerHint s hint now).1) :=
  ⟨poolInv_mkPool, poolInv_refill, poolInv_maybeStart,
   poolInv_updateLimits, poolInv_applyServerHint⟩

/-- Witness for C3: the invariant facts at concrete states. -/
theorem tokenBucket_invariant_witness :
    PoolInv (mkPool 4 60 false 0) ∧
    PoolInv (refill (mkPool 4 60 false 0) 200).1 ∧
    PoolInv (applyServerHint (mkPool 4 60 false 0) ⟨some 1000, some 30⟩ 200).1 := by
  have h := tokenBucket_invariant
  refine ⟨h.1 4 60 false 0, ?_, ?_⟩
  · exact h.2.1 (mkPool 4 60 false 0) 200 (h.1 4 60 false 0) (by norm_num [mkPool])
  · exact h.2.2.2.2 (mkPool 4 60 false 0) ⟨some 1000, some 30⟩ 200 (h.1 4 60 false 0)

/-- A pool state with one running task and one queued task (id 2). -/
def poolStateEx : PoolState :=
  { maxConcurrency := 1, maxPerMinute := 60, running := 1, queue := [⟨2⟩],
    tokens := 59, capacity := 60, lastRefillTs := 0, cooldownUntil := 0,
    dynamicProbe := false, refillActive := true }

/-- Counterexample for C4: contrary to the claim, `dispose()` does not
reject the queued task's promise — it only aborts its controller.  In
`poolStateEx` task 2 is queued, yet the events of `dispose` contain no
rejection for it. -/
theorem dispose_no_reject_counterexample :
    ¬ (rejectedIds (dispose poolStateEx).2 = [2]) := by
  decide

/-- **C4 amended**: `dispose()` stops the refill tick, aborts each queued
task's controller and empties the queue, but — unlike `cancelAll()` —
rejects no queued task's promise (queued promises stay pending); running
tasks are not forcibly stopped (`running` is untouched). -/
theorem dispose_spec (s : PoolState) :
    (dispose s).1.refillActive = false ∧
    (dispose s).1.queue = [] ∧
    (dispose s).1.running = s.running ∧
    (dispose s).1.tokens = s.tokens ∧
    (dispose s).2 = s.queue.map (fun t => PoolEvent.ctrlAborted t.id) ∧
    rejectedIds (dispose s).2 = [] := by
  refine ⟨rfl, rfl, rfl, rfl, rfl, ?_⟩
  simp [dispose, rejectedIds, List.filterMap_map, Function.comp]

theorem rejectedIds_cancelAll_events (q : List SchedTask) :
    rejectedIds (q.flatMap
      (fun t => [PoolEvent.ctrlAborted t.id, PoolEvent.rejectedAborted t.id]))
      = q.map SchedTask.id := by
  induction q with
  | nil => rfl
  | cons t rest ih =>
    simp only [List.flatMap_cons, rejectedIds, List.filterMap_append, List.map_cons] at *
    simpa using ih

theorem startedIds_cancelAll_events (q : List SchedTask) :
    startedIds (q.flatMap
      (fun t => [PoolEvent.ctrlAborted t.id, PoolEvent.rejectedAborted t.id]))
      = [] := by
  induction q with
  | nil => rfl
  | cons t rest ih =>
    simp only [List.flatMap_cons, startedIds, List.filterMap_append] at *
    simpa using ih

/-- **C9**: `cancelAll()` rejects exactly the queued tasks (in order) and
never affects tasks already admitted: the queue is emptied, `running`
and `tokens` are untouched, no task is started.  Concretely, with
`maxConcurrency = 1` and two tasks submitted back to back, the first is
admitted immediately, the second stays queued, and cancelling right
after submission rejects only task 2 while task 1 keeps running. -/
theorem cancelAll_spec :
    (∀ s : PoolState,
      (cancelAll s).1.queue = [] ∧
      (cancelAll s).1.running = s.running ∧
      (cancelAll s).1.tokens = s.tokens ∧
      rejectedIds (cancelAll s).2 = s.queue.map SchedTask.id ∧
      startedIds (cancelAll s).2 = []) ∧
    (startedIds (schedule (mkPool 1 60 false 0) ⟨1⟩ 0).2 = [1] ∧
     startedIds (schedule (schedule (mkPool 1 60 false 0) ⟨1⟩ 0).1 ⟨2⟩ 0).2 = [] ∧
     (schedule (schedule (mkPool 1 60 false 0) ⟨1⟩ 0).1 ⟨2⟩ 0).1.queue = [⟨2⟩] ∧
     rejectedIds (cancelAll (schedule (schedule (mkPool 1 60 false 0) ⟨1⟩ 0).1 ⟨2⟩ 0).1).2 = [2] ∧
     (cancelAll (schedule (schedule (mkPool 1 60 false 0) ⟨1⟩ 0).1 ⟨2⟩ 0).1).1.running = 1) := by
  constructor
  · intro s
    exact ⟨rfl, rfl, rfl, rejectedIds_cancelAll_events s.queue,
      startedIds_cancelAll_events s.queue⟩
  · refine ⟨?_, ?_, ?_, ?_, ?_⟩ <;> decide

/-! ## Streaming transport (`HttpClient.generate`, `src/net/httpClient.ts`)

`doFetch` applies a fixed per-attempt deadline: a timer that calls
`controller.abort()`, making `fetch` reject with a `DOMException` named
`AbortError`.  The caller's signal aborts the same controller, producing
the same error.  One attempt's environment is therefore: an HTTP
response with some status, a network-level error, a deadline-timer
abort, or an external-signal abort. -/

structure JsError where
  name : String
  message : String
deriving Repr, DecidableEq

inductive AttemptEnv
  | response (status : Nat)
  | netError (e : JsError)
  | deadlineExceeded
  | externalAbort
deriving Repr, DecidableEq

/-- The error an aborted `fetch` rejects with (deadline timer or signal). -/
def abortError : JsError := ⟨"AbortError", "This operation was aborted"⟩

def doFetch : AttemptEnv → Except JsError Nat
  | AttemptEnv.response st => Except.ok st
  | AttemptEnv.netError e => Except.error e
  | AttemptEnv.deadlineExceeded => Except.error abortError
  | AttemptEnv.externalAbort => Except.error abortError

/-- `pat` occurs as a contiguous substring of `s`. -/
def hasInfix (pat : List Char) : List Char → Bool
  | [] => pat.isEmpty
  | c :: rest => pat.isPrefixOf (c :: rest) || hasInfix pat rest

/-- `err.name === 'AbortError' || /abort/i.test(err.message || '')`;
the case-insensitive regex test is lower-casing plus substring search. -/
def isAbortError (e : JsError) : Bool :=
  e.name == "AbortError" ||
    hasInfix "abort".toList (e.message.toList.map Char.toLower)

/-- `createHttpError('生成请求失败', status, ...)` (body elided). -/
def createHttpError (status : Nat) : JsError :=
  ⟨"Error", "生成请求失败 (status=" ++ toString status ++ ")"⟩

inductive GenOutcome
  | success (status : Nat)
  | failure (e : JsError)
deriving Repr, DecidableEq

def statusOk (st : Nat) : Bool := 200 ≤ st && st < 300

/-- The retry loop of `generate` (`while (attempt <= maxRetries)`, with
`attempt` incremented at the top).  `rem + 1` is the number of attempts
the loop may still make, so after the current attempt a retry is allowed
iff `1 ≤ rem` (i.e. `attempt <= maxRetries` in the source).  The result
counts how many `doFetch` calls were made and gives the final outcome.
Note that a non-retryable status is `throw`n *inside* the `try`, so it is
caught by the same `catch` and goes through the `isAbortError` test like
any other error.  Backoff waits (not modelled) never fail with an
unsignaled caller signal. -/
def genFrom (envs : Nat → AttemptEnv) (attempt : Nat) : Nat → Nat × GenOutcome
  | 0 => (0, GenOutcome.failure ⟨"Error", "unknown error"⟩)
  | rem + 1 =>
    match doFetch (envs attempt) with
    | Except.ok st =>
      if statusOk st then (1, GenOutcome.success st)
      else if (st = 429 ∨ st = 503) ∧ 1 ≤ rem then
        let r := genFrom envs (attempt + 1) rem
        (r.1 + 1, r.2)
      else if isAbortError (createHttpError st) then
        (1, GenOutcome.failure (createHttpError st))
      else if 1 ≤ rem then
        let r := genFrom envs (attempt + 1) rem
        (r.1 + 1, r.2)
      else (1, GenOutcome.failure (createHttpError st))
    | Except.error e =>
      if isAbortError e then (1, GenOutcome.failure e)
      else if 1 ≤ rem then
        let r := genFrom envs (attempt + 1) rem
        (r.1 + 1, r.2)
      else (1, GenOutcome.failure e)

def generateModel (envs : Nat → AttemptEnv) (maxRetries : Nat) : Nat × GenOutcome :=
  genFrom envs 1 (maxRetries + 1)

/-- Every attempt environment where the first attempt hits the deadline. -/
def envTimeoutEx : Nat → AttemptEnv := fun _ => AttemptEnv.deadlineExceeded

/-- Counterexample for C5: with `maxRetries = 2` and the first attempt
aborted by the deadline timer (cancel signal unsignaled), `generate`
performs no second attempt: it fails immediately with the abort error
after a single `doFetch`, instead of backing off and retrying. -/
theorem timeout_not_retried_counterexample :
    generateModel envTimeoutEx 2 = (1, GenOutcome.failure abortError) ∧
    ¬ 2 ≤ (generateModel envTimeoutEx 2).1 := by
  constructor
  · rfl
  · decide

theorem genFrom_pos (envs : Nat → AttemptEnv) (attempt rem : Nat) (h : 1 ≤ rem) :
    1 ≤ (genFrom envs attempt rem).1 := by
  match rem, h with
  | rem + 1, _ =>
    rw [genFrom]
    split
    · split
      · exact le_refl 1
      · split
        · exact Nat.le_add_left 1 _
        · split
          · exact le_refl 1
          · split
            · exact Nat.le_add_left 1 _
            · exact le_refl 1
    · split
      · exact le_refl 1
      · split
        · exact Nat.le_add_left 1 _
        · exact le_refl 1

/-- **C5 amended**: a deadline-timer abort surfaces from `fetch` as an
`AbortError`, which `generate`'s catch block classifies via
`isAbortError` as cancellation and rethrows immediately — the attempt is
*not* retried, whatever `maxRetries` allows.  Only failures that do not
look like aborts (e.g. transport-level network errors) are retried
within `maxRetries`. -/
theorem generate_timeout_aborts_immediately (envs : Nat → AttemptEnv) (maxRetries : Nat)
    (h1 : envs 1 = AttemptEnv.deadlineExceeded) :
    generateModel envs maxRetries = (1, GenOutcome.failure abortError) ∧
    (∀ (envs' : Nat → AttemptEnv) (mr : Nat),
      envs' 1 = AttemptEnv.netError ⟨"FetchError", "connect ECONNREFUSED"⟩ →
      1 ≤ mr → 2 ≤ (generateModel envs' mr).1) := by
  constructor
  · rw [generateModel, genFrom, h1]
    simp only [doFetch]
    rw [if_pos (by decide : isAbortError abortError = true)]
  · intro envs' mr h2 hmr
    rw [generateModel, genFrom, h2]
    simp only [doFetch]
    rw [if_neg (by decide :
        ¬ isAbortError ⟨"FetchError", "connect ECONNREFUSED"⟩ = true)]
    rw [if_pos hmr]
    have hpos := genFrom_pos envs' (1 + 1) mr hmr
    dsimp only
    omega

/-- Witness for C5's amended theorem at concrete environments. -/
theorem generate_timeout_aborts_immediately_witness :
    generateModel envTimeoutEx 3 = (1, GenOutcome.failure abortError) ∧
    2 ≤ (generateModel (fun _ => AttemptEnv.netError ⟨"FetchError", "connect ECONNREFUSED"⟩) 1).1 := by
  have h := generate_timeout_aborts_immediately envTimeoutEx 3 rfl
  exact ⟨h.1, h.2 (fun _ => AttemptEnv.netError ⟨"FetchError", "connect ECONNREFUSED"⟩) 1 rfl (by decide)⟩

/-! ## The per-document mutation queue (`StreamInserter.enqueue`)

```ts
private async enqueue(task: () => Promise<void>): Promise<void> {
  const prev = StreamInserter.queues.get(key) ?? Promise.resolve();
  const next = prev.then(async () => {
    try { await task(); } catch { /* ignore single task failure */ }
  });
  StreamInserter.queues.set(key, next);
  await next;
}
```
A mutation application is an `Except ε Unit` (the outcome of
`editor.edit`); the chained link swallows the task's failure, so each
link of the queue settles `ok` and the awaited `next` is the value the
calling operation's promise resolves with.  All of `start`,
`appendDelta`, `finish` *and* `restoreOriginal` await `enqueue`. -/

def enqueueResult {ε : Type} (task : Except ε Unit) : Except ε Unit :=
  match task with
  | Except.ok _ => Except.ok ()
  | Except.error _ => Except.ok ()

/-- `prev.then(wrapped-task)`: if `prev` rejected the link rejects too;
otherwise the task runs with its failure swallowed. -/
def enqueueChain {ε : Type} (prev task : Except ε Unit) : Except ε Unit :=
  match prev with
  | Except.ok _ => enqueueResult task
  | Except.error e => Except.error e

/-- The value of the document queue after chaining `tasks` in submission
order onto the initially resolved queue head. -/
def runQueue {ε : Type} (tasks : List (Except ε Unit)) : Except ε Unit :=
  tasks.foldl enqueueChain (Except.ok ())

def editFailureEx : JsError := ⟨"Error", "edit could not be applied"⟩

/-- Counterexample for C6: a failing `restoreOriginal` mutation does not
reject the promise returned by `restoreOriginal` — the queue link
swallows it and the promise resolves. -/
theorem restoreOriginal_swallowed_counterexample :
    runQueue [Except.error editFailureEx] = Except.ok () ∧
    ¬ runQueue [Except.error editFailureEx] = Except.error editFailureEx :=
  ⟨rfl, by simp [runQueue, enqueueChain, enqueueResult]⟩

/-- **C6 amended**: `restoreOriginal` awaits the same `enqueue` wrapper
as `start`/`appendDelta`/`finish`, whose `catch` swallows the mutation
application's failure; whatever the outcomes of the previously queued
mutations and of the `restoreOriginal` edit itself, the queue value the
operation awaits is resolved — a `restoreOriginal` failure is *not*
surfaced to the caller. -/
theorem restoreOriginal_not_surfaced {ε : Type}
    (prevTasks : List (Except ε Unit)) (restoreEdit : Except ε Unit) :
    runQueue (prevTasks ++ [restoreEdit]) = Except.ok () := by
  have hfold : ∀ (ts : List (Except ε Unit)),
      ts.foldl enqueueChain (Except.ok ()) = Except.ok () := by
    intro ts
    induction ts with
    | nil => rfl
    | cons t rest ih =>
      rw [List.foldl_cons]
      have : enqueueChain (ε := ε) (Except.ok ()) t = Except.ok () := by
        cases t <;> rfl
      rw [this, ih]
  exact hfold _

/-! ## Anchor-coordinated inserter (`StreamInserter`, `src/edit/insert.ts`)

Strings are `List Char`.  `text.split(/\r\n|\r|\n/)` is `splitLines`
(the alternation tries `\r\n` first, so a CRLF pair is one break).  A
document is its list of lines, each line holding no break characters;
positions are zero-based `(line, char)` pairs as in vscode. -/

structure Pos where
  line : Nat
  char : Nat
deriving Repr, DecidableEq

/-- A document range (`vscode.Range`); `stop` embeds the source's `end`. -/
structure DocRange where
  start : Pos
  stop : Pos
deriving Repr, DecidableEq

/-- Prepend a character to the first line of a split result. -/
def consHead (c : Char) : List (List Char) → List (List Char)
  | [] => [[c]]
  | l :: ls => (c :: l) :: ls

/-- `text.split(/\r\n|\r|\n/)`: always returns at least one (possibly
empty) segment; `\r\n` counts as a single break. -/
def splitLines : List Char → List (List Char)
  | [] => [[]]
  | c :: rest =>
    if c = '\n' then [] :: splitLines rest
    else if c = '\r' then
      match rest with
      | [] => [[], []]
      | d :: rest2 =>
        if d = '\n' then [] :: splitLines rest2
        else [] :: splitLines (d :: rest2)
    else consHead c (splitLines rest)

/-- The number of line breaks in a text (`\r\n` counting once). -/
def countBreaks : List Char → Nat
  | [] => 0
  | c :: rest =>
    if c = '\n' then countBreaks rest + 1
    else if c = '\r' then
      match rest with
      | [] => 1
      | d :: rest2 =>
        if d = '\n' then countBreaks rest2 + 1
        else countBreaks (d :: rest2) + 1
    else countBreaks rest

/-- The segment of a text after its last line break (the whole text when
it has no breaks). -/
def finalSegment : List Char → List Char
  | [] => []
  | c :: rest =>
    if c = '\n' then finalSegment rest
    else if c = '\r' then
      match rest with
      | [] => []
      | d :: rest2 =>
        if d = '\n' then finalSegment rest2
        else finalSegment (d :: rest2)
    else if countBreaks rest = 0 then c :: rest else finalSegment rest

/-- The new anchor computed by `StreamInserter.updateAnchor`:
single-line text advances the column by `text.length`; multi-line text
moves to `(line + lines.length - 1, length of last line)`. -/
def advanceAnchor (p : Pos) (t : List Char) : Pos :=
  let lines := splitLines t
  if lines.length = 1 then ⟨p.line, p.char + t.length⟩
  else ⟨p.line + (lines.length - 1), (lines.getLastD []).length⟩

inductive InsertMode
  | append
  | replace
deriving Repr, DecidableEq

/-- One `StreamInserter`'s state (the fields the claims concern). -/
structure Session where
  mode : InsertMode
  preSeparator : List Char
  originalStartLine : Nat
  originalStartChar : Nat
  anchor : Pos
  initialAnchor : Pos
  originalRange : Option DocRange
  inserted : Bool
  disposed : Bool
  totalInsertedLength : Nat
deriving Repr, DecidableEq

/-- The constructor: `replace` anchors at `range.start`, `append` at
`range.end`; the original start position is recorded for the stable
"logically after" comparison. -/
def mkSession (mode : InsertMode) (range : DocRange) (preSeparator : List Char) : Session :=
  let anchor := match mode with
    | InsertMode.replace => range.start
    | InsertMode.append => range.stop
  { mode := mode, preSeparator := preSeparator,
    originalStartLine := anchor.line, originalStartChar := anchor.char,
    anchor := anchor, initialAnchor := anchor, originalRange := some range,
    inserted := false, disposed := false, totalInsertedLength := 0 }

def shiftRange (r : DocRange) (k : Nat) : DocRange :=
  ⟨⟨r.start.line + k, r.start.char⟩, ⟨r.stop.line + k, r.stop.char⟩⟩

/-- `StreamInserter.adjustAnchorOffset`: a live session whose original
start position is strictly after the source's original start position
shifts its anchor, initial anchor and original range down by
`insertedLines` lines. -/
def adjustAnchorOffset (s : Session) (srcLine srcChar insertedLines : Nat) : Session :=
  if s.disposed then s
  else if srcLine < s.originalStartLine ∨
      (s.originalStartLine = srcLine ∧ srcChar < s.originalStartChar) then
    { s with anchor := ⟨s.anchor.line + insertedLines, s.anchor.char⟩,
             initialAnchor := ⟨s.initialAnchor.line + insertedLines, s.initialAnchor.char⟩,
             originalRange := s.originalRange.map (fun r => shiftRange r insertedLines) }
  else s

/-- `notifyOtherInserters`: every other live tracker is offered the
adjustment (`others` is the registry minus `self`). -/
def notifyOtherInserters (self : Session) (others : List Session) (insertedLines : Nat) :
    List Session :=
  others.map (fun o =>
    if o.disposed then o
    else adjustAnchorOffset o self.originalStartLine self.originalStartChar insertedLines)

/-- `StreamInserter.updateAnchor`: advance the anchor over the inserted
text and, if it introduced new lines, notify the sibling sessions. -/
def updateAnchor (self : Session) (others : List Session) (t : List Char) :
    Session × List Session :=
  let insertedLines := (splitLines t).length - 1
  let self' := { self with anchor := advanceAnchor self.anchor t }
  if 0 < insertedLines then (self', notifyOtherInserters self others insertedLines)
  else (self', others)

/-! ### The document model

`editor.edit` insert/delete on a list-of-lines document. -/

abbrev Doc := List (List Char)

/-- Append `tail` to the last element of a nonempty list of lines. -/
def attachLast : List (List Char) → List Char → List (List Char)
  | [], tail => [tail]
  | [l], tail => [l ++ tail]
  | l :: ls, tail => l :: attachLast ls tail

/-- Splice the split segments of an inserted text between the prefix and
suffix of the line holding the insertion point. -/
def spliceLines (before : List Char) (ls : List (List Char)) (tail : List Char) :
    List (List Char) :=
  match ls with
  | [] => [before ++ tail]
  | [l] => [before ++ l ++ tail]
  | l :: rest => (before ++ l) :: attachLast rest tail

/-- Insert `t` at position `p`. -/
def insertAt (doc : Doc) (p : Pos) (t : List Char) : Doc :=
  let L := doc.getD p.line []
  doc.take p.line ++ spliceLines (L.take p.char) (splitLines t) (L.drop p.char)
    ++ doc.drop (p.line + 1)

/-- Delete the span from `p` to `q` (with `p ≤ q`). -/
def deleteRange (doc : Doc) (p q : Pos) : Doc :=
  if p.line = q.line then
    doc.take p.line
      ++ [(doc.getD p.line []).take p.char ++ (doc.getD p.line []).drop q.char]
      ++ doc.drop (p.line + 1)
  else
    doc.take p.line
      ++ [(doc.getD p.line []).take p.char ++ (doc.getD q.line []).drop q.char]
      ++ doc.drop (q.line + 1)

/-- Join lines with `\n` (the EOL used when reading a range's text). -/
def joinLinesN : List (List Char) → List Char
  | [] => []
  | [l] => l
  | l :: ls => l ++ '\n' :: joinLinesN ls

/-- `document.getText(range)` for `p ≤ q`. -/
def textAt (doc : Doc) (p q : Pos) : List Char :=
  if p.line = q.line then ((doc.getD p.line []).take q.char).drop p.char
  else joinLinesN ([(doc.getD p.line []).drop p.char]
        ++ (doc.drop (p.line + 1)).take (q.line - p.line - 1)
        ++ [(doc.getD q.line []).take q.char])

/-! ### The inserter's operations, with their document effect -/

/-- `appendDelta(delta)`: no-op on a disposed session or an empty delta
(nothing enqueued — the `Bool` reports whether a mutation was enqueued);
otherwise insert at the anchor, advance it, notify siblings on a
multi-line delta, and account the inserted length. -/
def appendDeltaFull (self : Session) (others : List Session) (doc : Doc)
    (delta : List Char) : Session × List Session × Doc × Bool :=
  if self.disposed then (self, others, doc, false)
  else if delta = [] then (self, others, doc, false)
  else
    let doc' := insertAt doc self.anchor delta
    let su := updateAnchor self others delta
    ({ su.1 with totalInsertedLength := su.1.totalInsertedLength + delta.length,
                 inserted := true },
     su.2, doc', true)

/-- The sibling adjustment performed by `notifyOtherInsertersForDelete`:
lines shift up by `deletedLines`, clamped at 0 (`Math.max(0, ...)`); the
original range is translated likewise (truncated subtraction standing in
for `translate(-deletedLines, 0)`). -/
def shiftForDelete (o : Session) (srcLine srcChar deletedLines : Nat) : Session :=
  if srcLine < o.originalStartLine ∨
      (o.originalStartLine = srcLine ∧ srcChar < o.originalStartChar) then
    { o with anchor := ⟨o.anchor.line - deletedLines, o.anchor.char⟩,
             initialAnchor := ⟨o.initialAnchor.line - deletedLines, o.initialAnchor.char⟩,
             originalRange := o.originalRange.map (fun r =>
               ⟨⟨r.start.line - deletedLines, r.start.char⟩,
                ⟨r.stop.line - deletedLines, r.stop.char⟩⟩) }
  else o

/-- The pre-separator insertion at the end of `start()`. -/
def insertPreSep (self : Session) (others : List Session) (doc : Doc) :
    Session × List Session × Doc :=
  if self.preSeparator = [] then (self, others, doc)
  else
    let doc' := insertAt doc self.anchor self.preSeparator
    let su := updateAnchor self others self.preSeparator
    ({ su.1 with totalInsertedLength := su.1.totalInsertedLength + self.preSeparator.length,
                 inserted := true },
     su.2, doc')

/-- `start()`: in replace mode delete the (re-based) original range and
notify siblings of the removed lines; then insert the pre-separator. -/
def startFull (self : Session) (others : List Session) (doc : Doc) :
    Session × List Session × Doc :=
  if self.disposed then (self, others, doc)
  else
    match self.mode, self.originalRange with
    | InsertMode.replace, some r =>
      let deletedLines := r.stop.line - r.start.line
      let doc1 := deleteRange doc r.start r.stop
      let others1 :=
        if 0 < deletedLines then
          others.map (fun o =>
            if o.disposed then o
            else shiftForDelete o self.originalStartLine self.originalStartChar deletedLines)
        else others
      insertPreSep self others1 doc1
    | _, _ => insertPreSep self others doc

/-- `restoreOriginal(originalText)`: one edit deleting the span from
`initialAnchor` to the current `anchor` (only when something was
inserted) and inserting `originalText` at `initialAnchor`. -/
def restoreOriginalFull (self : Session) (doc : Doc) (originalText : List Char) : Doc :=
  let doc1 :=
    if 0 < self.totalInsertedLength then deleteRange doc self.initialAnchor self.anchor
    else doc
  insertAt doc1 self.initialAnchor originalText

/-! ### Facts about `splitLines`, `countBreaks` and `finalSegment` -/

theorem consHead_ne_nil (c : Char) (ls : List (List Char)) : consHead c ls ≠ [] := by
  cases ls <;> simp [consHead]

theorem length_consHead (c : Char) (ls : List (List Char)) (h : ls ≠ []) :
    (consHead c ls).length = ls.length := by
  cases ls with
  | nil => exact absurd rfl h
  | cons l ls => rfl

theorem splitLines_nil : splitLines [] = [[]] := rfl

theorem splitLines_nl (r : List Char) : splitLines ('\n' :: r) = [] :: splitLines r := by
  rw [splitLines.eq_def]
  simp

theorem splitLines_crnl (r : List Char) :
    splitLines ('\r' :: '\n' :: r) = [] :: splitLines r := by
  rw [splitLines.eq_def]
  simp

theorem splitLines_cr_single : splitLines ['\r'] = [[], []] := by
  rw [splitLines.eq_def]
  simp

theorem splitLines_cr_other (d : Char) (r : List Char) (h : d ≠ '\n') :
    splitLines ('\r' :: d :: r) = [] :: splitLines (d :: r) := by
  rw [splitLines.eq_def]
  simp [h]

theorem splitLines_other (c : Char) (r : List Char) (h1 : c ≠ '\n') (h2 : c ≠ '\r') :
    splitLines (c :: r) = consHead c (splitLines r) := by
  rw [splitLines.eq_def]
  simp [h1, h2]

theorem countBreaks_nil : countBreaks [] = 0 := rfl

theorem countBreaks_nl (r : List Char) : countBreaks ('\n' :: r) = countBreaks r + 1 := by
  rw [countBreaks.eq_def]
  simp

theorem countBreaks_crnl (r : List Char) :
    countBreaks ('\r' :: '\n' :: r) = countBreaks r + 1 := by
  rw [countBreaks.eq_def]
  simp

theorem countBreaks_cr_single : countBreaks ['\r'] = 1 := by
  rw [countBreaks.eq_def]
  simp

theorem countBreaks_cr_other (d : Char) (r : List Char) (h : d ≠ '\n') :
    countBreaks ('\r' :: d :: r) = countBreaks (d :: r) + 1 := by
  rw [countBreaks.eq_def]
  simp [h]

theorem countBreaks_other (c : Char) (r : List Char) (h1 : c ≠ '\n') (h2 : c ≠ '\r') :
    countBreaks (c :: r) = countBreaks r := by
  rw [countBreaks.eq_def]
  simp [h1, h2]

theorem finalSegment_nil : finalSegment [] = [] := rfl

theorem finalSegment_nl (r : List Char) : finalSegment ('\n' :: r) = finalSegment r := by
  rw [finalSegment.eq_def]
  simp

theorem finalSegment_crnl (r : List Char) :
    finalSegment ('\r' :: '\n' :: r) = finalSegment r := by
  rw [finalSegment.eq_def]
  simp

theorem finalSegment_cr_single : finalSegment ['\r'] = [] := by
  rw [finalSegment.eq_def]
  simp

theorem finalSegment_cr_other (d : Char) (r : List Char) (h : d ≠ '\n') :
    finalSegment ('\r' :: d :: r) = finalSegment (d :: r) := by
  rw [finalSegment.eq_def]
  simp [h]

theorem finalSegment_other (c : Char) (r : List Char) (h1 : c ≠ '\n') (h2 : c ≠ '\r') :
    finalSegment (c :: r) = if countBreaks r = 0 then c :: r else finalSegment r := by
  rw [finalSegment.eq_def]
  simp [h1, h2]

theorem splitLines_ne_nil (t : List Char) : splitLines t ≠ [] := by
  induction t using splitLines.induct with
  | case1 => rw [splitLines_nil]; simp
  | case2 r ih => rw [splitLines_nl]; simp
  | case3 _ => rw [splitLines_cr_single]; simp
  | case4 r _ ih => rw [splitLines_crnl]; simp
  | case5 d r hd _ ih => rw [splitLines_cr_other d r hd]; simp
  | case6 c r h1 h2 ih => rw [splitLines_other c r h1 h2]; exact consHead_ne_nil c _

theorem length_splitLines (t : List Char) :
    (splitLines t).length = countBreaks t + 1 := by
  induction t using splitLines.induct with
  | case1 => rfl
  | case2 r ih => rw [splitLines_nl, countBreaks_nl]; simp [ih]
  | case3 _ => rfl
  | case4 r _ ih => rw [splitLines_crnl, countBreaks_crnl]; simp [ih]
  | case5 d r hd _ ih =>
    rw [splitLines_cr_other d r hd, countBreaks_cr_other d r hd]
    simp [ih]
  | case6 c r h1 h2 ih =>
    rw [splitLines_other c r h1 h2, countBreaks_other c r h1 h2,
      length_consHead c _ (splitLines_ne_nil r), ih]

theorem splitLines_of_no_breaks (t : List Char) (h : countBreaks t = 0) :
    splitLines t = [t] := by
  induction t using splitLines.induct with
  | case1 => rfl
  | case2 r ih => rw [countBreaks_nl] at h; exact absurd h (by omega)
  | case3 _ => exact absurd h (by rw [countBreaks_cr_single]; omega)
  | case4 r _ ih => rw [countBreaks_crnl] at h; exact absurd h (by omega)
  | case5 d r hd _ ih =>
    rw [countBreaks_cr_other d r hd] at h
    exact absurd h (by omega)
  | case6 c r h1 h2 ih =>
    rw [countBreaks_other c r h1 h2] at h
    rw [splitLines_other c r h1 h2, ih h]
    rfl

theorem getLastD_cons_ne_nil (a d : List Char) (l : List (List Char)) (h : l ≠ []) :
    (a :: l).getLastD d = l.getLastD d := by
  cases l with
  | nil => exact absurd rfl h
  | cons b bs => simp [List.getLastD_cons]

theorem getLastD_splitLines (t : List Char) :
    (splitLines t).getLastD [] = finalSegment t := by
  induction t using splitLines.induct with
  | case1 => rfl
  | case2 r ih =>
    rw [splitLines_nl, finalSegment_nl,
      getLastD_cons_ne_nil _ _ _ (splitLines_ne_nil r)]
    exact ih
  | case3 _ => rfl
  | case4 r _ ih =>
    rw [splitLines_crnl, finalSegment_crnl,
      getLastD_cons_ne_nil _ _ _ (splitLines_ne_nil r)]
    exact ih
  | case5 d r hd _ ih =>
    rw [splitLines_cr_other d r hd, finalSegment_cr_other d r hd,
      getLastD_cons_ne_nil _ _ _ (splitLines_ne_nil (d :: r))]
    exact ih
  | case6 c r h1 h2 ih =>
    rw [splitLines_other c r h1 h2, finalSegment_other c r h1 h2]
    by_cases hz : countBreaks r = 0
    · rw [if_pos hz, splitLines_of_no_breaks r hz]
      rfl
    · rw [if_neg hz]
      have hlen := length_splitLines r
      rcases hsp : splitLines r with _ | ⟨l, _ | ⟨l2, ls⟩⟩
      · exact absurd hsp (splitLines_ne_nil r)
      · rw [hsp] at hlen
        simp at hlen
        exact absurd hlen hz
      · rw [hsp] at ih
        rw [consHead, getLastD_cons_ne_nil _ _ _ (by simp)]
        rw [getLastD_cons_ne_nil _ _ _ (by simp)] at ih
        exact ih

/-! ### Claim C1: anchor advancement and sibling re-basing -/

theorem advanceAnchor_no_breaks (p : Pos) (t : List Char) (h : countBreaks t = 0) :
    advanceAnchor p t = ⟨p.line, p.char + t.length⟩ := by
  rw [advanceAnchor, splitLines_of_no_breaks t h]
  simp

theorem advanceAnchor_breaks (p : Pos) (t : List Char) (h : 0 < countBreaks t) :
    advanceAnchor p t = ⟨p.line + countBreaks t, (finalSegment t).length⟩ := by
  rw [advanceAnchor]
  have hlen := length_splitLines t
  rw [hlen, if_neg (by omega), getLastD_splitLines]
  simp

/-- The sibling adjustment as the claim states it: live sessions whose
*original* start position is strictly after the source's shift anchor,
initial anchor and original range down by `k` lines; others unchanged. -/
def specShift (srcLine srcChar k : Nat) (o : Session) : Session :=
  if ¬ o.disposed ∧ (srcLine < o.originalStartLine ∨
      (o.originalStartLine = srcLine ∧ srcChar < o.originalStartChar)) then
    { o with anchor := ⟨o.anchor.line + k, o.anchor.char⟩,
             initialAnchor := ⟨o.initialAnchor.line + k, o.initialAnchor.char⟩,
             originalRange := o.originalRange.map (fun r => shiftRange r k) }
  else o

theorem updateAnchor_others (self : Session) (others : List Session) (t : List Char)
    (h : 0 < countBreaks t) :
    (updateAnchor self others t).2 =
      others.map (specShift self.originalStartLine self.originalStartChar (countBreaks t)) := by
  rw [updateAnchor]
  have hlen := length_splitLines t
  rw [if_pos (by omega)]
  have hk : (splitLines t).length - 1 = countBreaks t := by omega
  rw [notifyOtherInserters, hk]
  apply List.map_congr_left
  intro o _
  by_cases hd : o.disposed
  · simp [hd, specShift]
  · rw [if_neg hd, adjustAnchorOffset, if_neg (by simp [hd]), specShift]
    by_cases hafter : self.originalStartLine < o.originalStartLine ∨
        (o.originalStartLine = self.originalStartLine ∧
         self.originalStartChar < o.originalStartChar)
    · rw [if_pos hafter, if_pos ⟨by simp [hd], hafter⟩]
    · rw [if_neg hafter, if_neg (by simp [hd, hafter])]

/-- **C1**: `appendDelta(text)` (live session, nonempty text) advances
the anchor as specified — no line breaks: column grows by `text.length`;
otherwise the anchor becomes `(line + number of breaks, length of the
final segment)` — and when `K ≥ 1` lines were introduced, every other
live session originally strictly after this one has anchor, initial
anchor and original range shifted down by exactly `K` lines, while
disposed sessions and sessions originally at or before are unchanged
(`specShift` states exactly this case split). -/
theorem appendDelta_anchor_spec (self : Session) (others : List Session) (doc : Doc)
    (delta : List Char) (hd : self.disposed = false) (hne : delta ≠ []) :
    (countBreaks delta = 0 →
      (appendDeltaFull self others doc delta).1.anchor =
        ⟨self.anchor.line, self.anchor.char + delta.length⟩ ∧
      (appendDeltaFull self others doc delta).2.1 = others) ∧
    (0 < countBreaks delta →
      (appendDeltaFull self others doc delta).1.anchor =
        ⟨self.anchor.line + countBreaks delta, (finalSegment delta).length⟩ ∧
      (appendDeltaFull self others doc delta).2.1 =
        others.map (specShift self.originalStartLine self.originalStartChar
          (countBreaks delta))) := by
  rw [appendDeltaFull, if_neg (by simp [hd]), if_neg hne]
  constructor
  · intro h0
    have hlen := length_splitLines delta
    constructor
    · show (updateAnchor self others delta).1.anchor = _
      rw [updateAnchor]
      rw [if_neg (by omega)]
      exact advanceAnchor_no_breaks self.anchor delta h0
    · show (updateAnchor self others delta).2 = others
      rw [updateAnchor, if_neg (by omega)]
  · intro h1
    have hlen := length_splitLines delta
    constructor
    · show (updateAnchor self others delta).1.anchor = _
      rw [updateAnchor, if_pos (by omega)]
      exact advanceAnchor_breaks self.anchor delta h1
    · exact updateAnchor_others self others delta h1

/-- Witness for C1: a live session at original start `(0,0)`, one live
sibling originally after it, one originally before (itself), and a
disposed sibling; the multi-line delta `"ab\ncd"` shifts only the live
after-sibling by one line, and the single-line delta `"xy"` moves the
column only. -/
theorem appendDelta_anchor_spec_witness :
    ((appendDeltaFull (mkSession InsertMode.append ⟨⟨0, 0⟩, ⟨0, 0⟩⟩ [])
        [mkSession InsertMode.append ⟨⟨2, 1⟩, ⟨2, 1⟩⟩ []] [[]]
        ('a' :: 'b' :: '\n' :: 'c' :: 'd' :: [])).1.anchor = ⟨1, 2⟩ ∧
      (appendDeltaFull (mkSession InsertMode.append ⟨⟨0, 0⟩, ⟨0, 0⟩⟩ [])
        [mkSession InsertMode.append ⟨⟨2, 1⟩, ⟨2, 1⟩⟩ []] [[]]
        ('a' :: 'b' :: '\n' :: 'c' :: 'd' :: [])).2.1 =
        [{ mkSession InsertMode.append ⟨⟨2, 1⟩, ⟨2, 1⟩⟩ [] with
            anchor := ⟨3, 1⟩, initialAnchor := ⟨3, 1⟩,
            originalRange := some ⟨⟨3, 1⟩, ⟨3, 1⟩⟩ }]) ∧
    (appendDeltaFull (mkSession InsertMode.append ⟨⟨0, 0⟩, ⟨0, 0⟩⟩ [])
        [] [[]] ('x' :: 'y' :: [])).1.anchor = ⟨0, 2⟩ := by
  have h1 := appendDelta_anchor_spec (mkSession InsertMode.append ⟨⟨0, 0⟩, ⟨0, 0⟩⟩ [])
    [mkSession InsertMode.append ⟨⟨2, 1⟩, ⟨2, 1⟩⟩ []] [[]]
    ('a' :: 'b' :: '\n' :: 'c' :: 'd' :: []) (by decide) (by decide)
  have h2 := appendDelta_anchor_spec (mkSession InsertMode.append ⟨⟨0, 0⟩, ⟨0, 0⟩⟩ [])
    [] [[]] ('x' :: 'y' :: []) (by decide) (by decide)
  have hm := (h1.2 (by decide)).2
  refine ⟨⟨(h1.2 (by decide)).1, ?_⟩, (h2.1 (by decide)).1⟩
  rw [hm]
  decide

/-- **C10**: `appendDelta('')` is a complete no-op: nothing is enqueued
(the flag is `false`), the document, the session (anchor, `inserted`,
total inserted length) and all sibling sessions are unchanged. -/
theorem appendDelta_empty_noop (self : Session) (others : List Session) (doc : Doc) :
    appendDeltaFull self others doc [] = (self, others, doc, false) := by
  rw [appendDeltaFull]
  split
  · rfl
  · rw [if_pos rfl]

/-! ### Claim C2: `restoreOriginal` — document-level machinery -/

/-- `p` is a position inside `doc`. -/
def Valid (doc : Doc) (p : Pos) : Prop :=
  p.line < doc.length ∧ p.char ≤ (doc.getD p.line []).length

/-- A text free of line-break characters (every line of a document is). -/
def breakFree (l : List Char) : Prop := ∀ c ∈ l, c ≠ '\n' ∧ c ≠ '\r'

instance breakFree_decidable (l : List Char) : Decidable (breakFree l) :=
  inferInstanceAs (Decidable (∀ c ∈ l, c ≠ '\n' ∧ c ≠ '\r'))

theorem breakFree_sub {l m : List Char} (hsub : m ⊆ l) (h : breakFree l) :
    breakFree m := fun c hc => h c (hsub hc)

theorem countBreaks_eq_zero (l : List Char) (h : breakFree l) : countBreaks l = 0 := by
  induction l with
  | nil => rfl
  | cons c r ih =>
    have hc := h c (by simp)
    rw [countBreaks_other c r hc.1 hc.2]
    exact ih (breakFree_sub (by simp) h)

theorem splitLines_breakFree (l : List Char) (h : breakFree l) : splitLines l = [l] :=
  splitLines_of_no_breaks l (countBreaks_eq_zero l h)

theorem splitLines_append_nl (l r : List Char) (h : breakFree l) :
    splitLines (l ++ '\n' :: r) = l :: splitLines r := by
  induction l with
  | nil => simpa using splitLines_nl r
  | cons c l ih =>
    have hc := h c (by simp)
    rw [List.cons_append, splitLines_other c _ hc.1 hc.2,
      ih (breakFree_sub (by simp) h)]
    rfl

theorem joinLinesN_cons_cons (l1 l2 : List Char) (ls : List (List Char)) :
    joinLinesN (l1 :: l2 :: ls) = l1 ++ '\n' :: joinLinesN (l2 :: ls) := by
  rw [joinLinesN.eq_def]

theorem splitLines_joinLinesN (ls : List (List Char)) (hne : ls ≠ [])
    (h : ∀ l ∈ ls, breakFree l) : splitLines (joinLinesN ls) = ls := by
  induction ls with
  | nil => exact absurd rfl hne
  | cons l rest ih =>
    cases rest with
    | nil => exact splitLines_breakFree l (h l (by simp))
    | cons l2 rest2 =>
      rw [joinLinesN_cons_cons, splitLines_append_nl l _ (h l (by simp)),
        ih (by simp) (fun x hx => h x (by simp [hx]))]

theorem attachLast_cons_cons (l1 l2 : List Char) (ls : List (List Char)) (a : List Char) :
    attachLast (l1 :: l2 :: ls) a = l1 :: attachLast (l2 :: ls) a := by
  rw [attachLast.eq_def]

theorem attachLast_append_singleton (M : List (List Char)) (y a : List Char) :
    attachLast (M ++ [y]) a = M ++ [y ++ a] := by
  induction M with
  | nil => rfl
  | cons m M ih =>
    cases M with
    | nil => rfl
    | cons m2 M2 =>
      simp only [List.cons_append] at ih ⊢
      rw [attachLast_cons_cons, ih]

theorem spliceLines_single (b l a : List Char) : spliceLines b [l] a = [b ++ l ++ a] := rfl

theorem spliceLines_multi (b l0 : List Char) (rest : List (List Char)) (a : List Char)
    (h : rest ≠ []) :
    spliceLines b (l0 :: rest) a = (b ++ l0) :: attachLast rest a := by
  cases rest with
  | nil => exact absurd rfl h
  | cons r rs => rfl

/-- Recompose a document from the pieces around one line. -/
theorem doc_recompose (doc : Doc) (n : Nat) (h : n < doc.length) :
    doc.take n ++ (doc.getD n []) :: doc.drop (n + 1) = doc := by
  induction doc generalizing n with
  | nil => simp at h
  | cons a l ih =>
    cases n with
    | zero => simp
    | succ n =>
      simp only [List.take_succ_cons, List.drop_succ_cons, List.getD_cons_succ,
        List.cons_append]
      rw [ih n (by simpa using h)]

/-- Recompose a document from the pieces around two lines `m < n`. -/
theorem doc_recompose_two (doc : Doc) (m n : Nat) (hmn : m < n) (hn : n < doc.length) :
    doc.take m ++ (doc.getD m []) ::
      ((doc.drop (m + 1)).take (n - m - 1) ++ (doc.getD n []) :: doc.drop (n + 1)) = doc := by
  have hdrop : (doc.drop (m + 1)).drop (n - m - 1) = doc.drop n := by
    rw [List.drop_drop]
    congr 1
    omega
  have hget : doc.drop n = (doc.getD n []) :: doc.drop (n + 1) := by
    rw [List.getD_eq_getElem doc [] hn]
    exact List.drop_eq_getElem_cons hn
  calc doc.take m ++ (doc.getD m []) ::
        ((doc.drop (m + 1)).take (n - m - 1) ++ (doc.getD n []) :: doc.drop (n + 1))
      = doc.take m ++ (doc.getD m []) ::
        ((doc.drop (m + 1)).take (n - m - 1) ++ (doc.drop (m + 1)).drop (n - m - 1)) := by
        rw [hdrop, hget]
    _ = doc.take m ++ (doc.getD m []) :: doc.drop (m + 1) := by
        rw [List.take_append_drop]
    _ = doc := doc_recompose doc m (lt_trans hmn hn)

/-! Access helpers for documents of the shape `P ++ x :: S`. -/

theorem take_at (P : Doc) (x : List Char) (S : Doc) (n : Nat) (h : P.length = n) :
    (P ++ x :: S).take n = P :=
  List.take_left' h

theorem getD_at (P : Doc) (x : List Char) (S : Doc) (n : Nat) (h : P.length = n) :
    (P ++ x :: S).getD n [] = x := by
  subst h
  rw [List.getD_append_right _ _ _ _ (le_refl _)]
  simp

theorem drop_at (P : Doc) (x : List Char) (S : Doc) (n : Nat) (h : P.length = n) :
    (P ++ x :: S).drop (n + 1) = S := by
  subst h
  have : P.length + 1 = (P ++ [x]).length := by simp
  rw [show P ++ x :: S = (P ++ [x]) ++ S by simp, this, List.drop_left]

theorem take_len_pre (B rest : List Char) (n : Nat) (h : B.length = n) :
    (B ++ rest).take n = B :=
  List.take_left' h

theorem drop_len_pre (B rest : List Char) (n : Nat) (h : B.length = n) :
    (B ++ rest).drop n = rest :=
  List.drop_left' h

/-! Evaluations of `insertAt`/`deleteRange`/`advanceAnchor` on documents
in the canonical split shape. -/

theorem insertAt_shape (P : Doc) (x1 x2 : List Char) (S : Doc) (n c : Nat)
    (hP : P.length = n) (hx : x1.length = c) (t : List Char) :
    insertAt (P ++ (x1 ++ x2) :: S) ⟨n, c⟩ t =
      P ++ spliceLines x1 (splitLines t) x2 ++ S := by
  simp only [insertAt]
  rw [getD_at _ _ _ _ hP, take_at _ _ _ _ hP, drop_at _ _ _ _ hP,
    take_len_pre _ _ _ hx, drop_len_pre _ _ _ hx]

theorem deleteRange_shape_same (P : Doc) (x1 x2 x3 : List Char) (S : Doc) (n c1 c2 : Nat)
    (hP : P.length = n) (h1 : x1.length = c1) (h2 : c2 = c1 + x2.length) :
    deleteRange (P ++ (x1 ++ x2 ++ x3) :: S) ⟨n, c1⟩ ⟨n, c2⟩ = P ++ (x1 ++ x3) :: S := by
  rw [deleteRange, if_pos rfl]
  dsimp only
  rw [getD_at _ _ _ _ hP, take_at _ _ _ _ hP, drop_at _ _ _ _ hP]
  have e1 : (x1 ++ x2 ++ x3).take c1 = x1 := by
    rw [List.append_assoc, take_len_pre _ _ _ h1]
  have e2 : (x1 ++ x2 ++ x3).drop c2 = x3 :=
    drop_len_pre (x1 ++ x2) x3 c2 (by simp [h1.symm] at h2 ⊢; omega)
  rw [e1, e2]
  simp

theorem deleteRange_shape_two (P : Doc) (x1 x2 : List Char) (M : Doc) (y1 y2 : List Char)
    (S : Doc) (n1 c1 n2 c2 : Nat) (hP : P.length = n1) (hx : x1.length = c1)
    (hn2 : n2 = n1 + 1 + M.length) (hy : y1.length = c2) :
    deleteRange (P ++ (x1 ++ x2) :: (M ++ (y1 ++ y2) :: S)) ⟨n1, c1⟩ ⟨n2, c2⟩ =
      P ++ (x1 ++ y2) :: S := by
  rw [deleteRange, if_neg (by dsimp only; omega)]
  dsimp only
  rw [getD_at _ _ _ _ hP, take_at _ _ _ _ hP]
  have hsh : P ++ (x1 ++ x2) :: (M ++ (y1 ++ y2) :: S) =
      (P ++ (x1 ++ x2) :: M) ++ (y1 ++ y2) :: S := by simp
  have hQ : (P ++ (x1 ++ x2) :: M).length = n2 := by
    simp [List.length_append, hP]
    omega
  rw [hsh, getD_at _ _ _ _ hQ, drop_at _ _ _ _ hQ]
  rw [take_len_pre _ _ _ hx, drop_len_pre _ _ _ hy]
  simp

theorem splitLines_single_of_no_breaks (t : List Char) (h : countBreaks t = 0) :
    splitLines t = [t] := splitLines_of_no_breaks t h

theorem splitLines_multi_shape (t : List Char) (h : countBreaks t ≠ 0) :
    ∃ (l0 y : List Char) (M : List (List Char)),
      splitLines t = l0 :: (M ++ [y]) := by
  have hlen := length_splitLines t
  rcases hsp : splitLines t with _ | ⟨l0, rest⟩
  · exact absurd hsp (splitLines_ne_nil t)
  · rcases List.eq_nil_or_concat rest with hr | ⟨M, y, hr⟩
    · subst hr
      rw [hsp] at hlen
      simp at hlen
      exfalso
      omega
    · subst hr
      exact ⟨l0, y, M, by simp [List.concat_eq_append]⟩

theorem advanceAnchor_shape (p : Pos) (t : List Char) (l0 y : List Char)
    (M : List (List Char)) (hsp : splitLines t = l0 :: (M ++ [y])) :
    advanceAnchor p t = ⟨p.line + 1 + M.length, y.length⟩ := by
  rw [advanceAnchor, hsp]
  have hlen : (l0 :: (M ++ [y])).length = M.length + 2 := by simp
  rw [hlen, if_neg (by omega)]
  have hlast : (l0 :: (M ++ [y])).getLastD [] = y := by
    rw [show l0 :: (M ++ [y]) = (l0 :: M) ++ [y] by simp, List.getLastD_concat]
  rw [hlast]
  congr 1
  omega

/-- The invariant of one live session between `start` and
`restoreOriginal`: relative to the base document `base` (the document as
it stood when the session anchored at `p`, i.e. after the replace-mode
deletion), everything the session has inserted sits between `p` and its
current anchor `q`, either within `p`'s line or spanning freshly
inserted lines. -/
def InsInv (base : Doc) (p : Pos) (doc : Doc) (q : Pos) (total : Nat) : Prop :=
  (∃ ins : List Char,
    q = ⟨p.line, p.char + ins.length⟩ ∧
    doc = base.take p.line ++
      ((base.getD p.line []).take p.char ++ ins ++ (base.getD p.line []).drop p.char) ::
      base.drop (p.line + 1) ∧
    (total = 0 → ins = [])) ∨
  (∃ (l0 lastL : List Char) (mids : List (List Char)),
    q = ⟨p.line + 1 + mids.length, lastL.length⟩ ∧
    doc = base.take p.line ++
      ((base.getD p.line []).take p.char ++ l0) ::
      (mids ++ (lastL ++ (base.getD p.line []).drop p.char) :: base.drop (p.line + 1)) ∧
    0 < total)

theorem insInv_init (base : Doc) (p : Pos) (hv : Valid base p) :
    InsInv base p base p 0 := by
  left
  refine ⟨[], by cases p; simp, ?_, fun _ => rfl⟩
  rw [show (base.getD p.line []).take p.char ++ [] ++ (base.getD p.line []).drop p.char
      = base.getD p.line [] by simp [List.take_append_drop]]
  exact (doc_recompose base p.line hv.1).symm

theorem insInv_insert (base : Doc) (p : Pos) (doc : Doc) (q : Pos) (total : Nat)
    (hv : Valid base p) (h : InsInv base p doc q total) (t : List Char) (ht : t ≠ []) :
    InsInv base p (insertAt doc q t) (advanceAnchor q t) (total + t.length) := by
  have hPlen : (base.take p.line).length = p.line := by
    rw [List.length_take]
    exact min_eq_left hv.1.le
  have hBlen : ((base.getD p.line []).take p.char).length = p.char := by
    rw [List.length_take]
    exact min_eq_left hv.2
  have htlen : 0 < t.length := List.length_pos.2 ht
  rcases h with ⟨ins, hq, hdoc, htot⟩ | ⟨l0, lastL, mids, hq, hdoc, htot⟩
  · subst hq hdoc
    have hB' : ((base.getD p.line []).take p.char ++ ins).length = p.char + ins.length := by
      rw [List.length_append, hBlen]
    have hshape := insertAt_shape (base.take p.line)
      ((base.getD p.line []).take p.char ++ ins) ((base.getD p.line []).drop p.char)
      (base.drop (p.line + 1)) p.line (p.char + ins.length) hPlen hB' t
    by_cases hz : countBreaks t = 0
    · left
      refine ⟨ins ++ t, ?_, ?_, ?_⟩
      · rw [advanceAnchor_no_breaks _ _ hz]
        simp [Nat.add_assoc]
      · rw [hshape, splitLines_single_of_no_breaks t hz, spliceLines_single]
        simp
      · intro h0
        omega
    · right
      obtain ⟨l0, y, M, hsp⟩ := splitLines_multi_shape t hz
      refine ⟨ins ++ l0, y, M, ?_, ?_, by omega⟩
      · rw [advanceAnchor_shape _ t l0 y M hsp]
      · rw [hshape, hsp, spliceLines_multi _ _ _ _ (by simp),
          attachLast_append_singleton]
        simp
  · subst hq hdoc
    have hQlen : ((base.take p.line) ++
        ((base.getD p.line []).take p.char ++ l0) :: mids).length
        = p.line + 1 + mids.length := by
      simp [List.length_append, hPlen]
      omega
    rw [show (base.take p.line) ++
          ((base.getD p.line []).take p.char ++ l0) ::
          (mids ++ (lastL ++ (base.getD p.line []).drop p.char) :: base.drop (p.line + 1))
        = ((base.take p.line) ++ ((base.getD p.line []).take p.char ++ l0) :: mids)
          ++ (lastL ++ (base.getD p.line []).drop p.char) :: base.drop (p.line + 1)
        by simp]
    rw [insertAt_shape _ lastL ((base.getD p.line []).drop p.char) _
      (p.line + 1 + mids.length) lastL.length hQlen rfl t]
    by_cases hz : countBreaks t = 0
    · right
      refine ⟨l0, lastL ++ t, mids, ?_, ?_, by omega⟩
      · rw [advanceAnchor_no_breaks _ _ hz]
        simp
      · rw [splitLines_single_of_no_breaks t hz, spliceLines_single]
        simp
    · right
      obtain ⟨l0', y, M, hsp⟩ := splitLines_multi_shape t hz
      refine ⟨l0, y, mids ++ (lastL ++ l0') :: M, ?_, ?_, by omega⟩
      · rw [advanceAnchor_shape _ t l0' y M hsp]
        simp only [List.length_append, List.length_cons]
        congr 1
        omega
      · rw [hsp, spliceLines_multi _ _ _ _ (by simp), attachLast_append_singleton]
        simp

theorem take_take_drop (L : List Char) (m n : Nat) (h : m ≤ n) :
    L.take m ++ (L.take n).drop m = L.take n := by
  conv_rhs => rw [← List.take_append_drop m (L.take n)]
  congr 1
  rw [List.take_take]
  rw [min_eq_left h]

/-- Deleting the span from the session's anchor point `p` to its current
anchor `q` undoes everything the session inserted (and is skipped
exactly when nothing was inserted). -/
theorem insInv_delete (base : Doc) (p : Pos) (doc : Doc) (q : Pos) (total : Nat)
    (hv : Valid base p) (h : InsInv base p doc q total) :
    (if 0 < total then deleteRange doc p q else doc) = base := by
  obtain ⟨pl, pc⟩ := p
  have hPlen : (base.take pl).length = pl := by
    rw [List.length_take]
    exact min_eq_left hv.1.le
  have hBlen : ((base.getD pl []).take pc).length = pc := by
    rw [List.length_take]
    exact min_eq_left hv.2
  have hrec : base.take pl ++
      ((base.getD pl []).take pc ++ (base.getD pl []).drop pc) :: base.drop (pl + 1)
      = base := by
    rw [List.take_append_drop]
    exact doc_recompose base pl hv.1
  rcases h with ⟨ins, hq, hdoc, htot⟩ | ⟨l0, lastL, mids, hq, hdoc, htot⟩
  · subst hq hdoc
    by_cases h0 : 0 < total
    · rw [if_pos h0]
      rw [deleteRange_shape_same _ _ ins _ _ pl pc (pc + ins.length) hPlen hBlen rfl]
      exact hrec
    · rw [if_neg h0, htot (by omega)]
      simpa using hrec
  · subst hq hdoc
    rw [if_pos htot]
    rw [deleteRange_shape_two _ _ l0 mids lastL _ _ pl pc (pl + 1 + mids.length)
      lastL.length hPlen hBlen rfl rfl]
    exact hrec

/-- The session's anchor point stays a valid position after the
replace-mode deletion of the original range. -/
theorem valid_after_delete (doc0 : Doc) (s e : Pos)
    (hse : s.line < e.line ∨ (s.line = e.line ∧ s.char ≤ e.char))
    (hel : e.line < doc0.length)
    (hsc : s.char ≤ (doc0.getD s.line []).length)
    (hec : e.char ≤ (doc0.getD e.line []).length) :
    Valid (deleteRange doc0 s e) s := by
  have hslt : s.line < doc0.length := by
    rcases hse with h | ⟨h, _⟩ <;> omega
  have hPlen : (doc0.take s.line).length = s.line := by
    rw [List.length_take]
    exact min_eq_left hslt.le
  by_cases hl : s.line = e.line
  · rw [deleteRange, if_pos hl]
    refine ⟨by simp [List.length_append, hPlen], ?_⟩
    rw [show doc0.take s.line ++
        [(doc0.getD s.line []).take s.char ++ (doc0.getD s.line []).drop e.char]
        ++ doc0.drop (s.line + 1)
      = doc0.take s.line ++
        ((doc0.getD s.line []).take s.char ++ (doc0.getD s.line []).drop e.char)
        :: doc0.drop (s.line + 1) from by simp]
    rw [getD_at _ _ _ _ hPlen, List.length_append, List.length_take]
    have hch : s.char ≤ e.char := by
      rcases hse with h | ⟨_, h⟩
      · omega
      · exact h
    have : s.char ≤ (doc0.getD s.line []).length := by rw [hl]; omega
    omega
  · rw [deleteRange, if_neg hl]
    refine ⟨by simp [List.length_append, hPlen], ?_⟩
    rw [show doc0.take s.line ++
        [(doc0.getD s.line []).take s.char ++ (doc0.getD e.line []).drop e.char]
        ++ doc0.drop (e.line + 1)
      = doc0.take s.line ++
        ((doc0.getD s.line []).take s.char ++ (doc0.getD e.line []).drop e.char)
        :: doc0.drop (e.line + 1) from by simp]
    rw [getD_at _ _ _ _ hPlen, List.length_append, List.length_take]
    omega

/-- Reinserting the range's original text at the range's start undoes
the range deletion (the document's lines hold no break characters). -/
theorem insert_textAt (doc0 : Doc) (s e : Pos)
    (hwf : ∀ l ∈ doc0, breakFree l)
    (hse : s.line < e.line ∨ (s.line = e.line ∧ s.char ≤ e.char))
    (hel : e.line < doc0.length)
    (hsc : s.char ≤ (doc0.getD s.line []).length)
    (hec : e.char ≤ (doc0.getD e.line []).length) :
    insertAt (deleteRange doc0 s e) s (textAt doc0 s e) = doc0 := by
  obtain ⟨sl, sc⟩ := s
  obtain ⟨el, ec⟩ := e
  dsimp only at hse hel hsc hec
  have hslt : sl < doc0.length := by
    rcases hse with h | ⟨h, _⟩ <;> omega
  have hPlen : (doc0.take sl).length = sl := by
    rw [List.length_take]
    exact min_eq_left hslt.le
  have hLsBF : breakFree (doc0.getD sl []) := by
    rw [List.getD_eq_getElem doc0 [] hslt]
    exact hwf _ (List.getElem_mem hslt)
  have hLeBF : breakFree (doc0.getD el []) := by
    rw [List.getD_eq_getElem doc0 [] hel]
    exact hwf _ (List.getElem_mem hel)
  have hBlen : ((doc0.getD sl []).take sc).length = sc := by
    rw [List.length_take]
    exact min_eq_left hsc
  by_cases hl : sl = el
  · subst hl
    have hch : sc ≤ ec := by
      rcases hse with h | ⟨_, h⟩
      · omega
      · exact h
    rw [textAt, if_pos rfl, deleteRange, if_pos rfl]
    dsimp only
    rw [show doc0.take sl ++
        [(doc0.getD sl []).take sc ++ (doc0.getD sl []).drop ec]
        ++ doc0.drop (sl + 1)
      = doc0.take sl ++
        ((doc0.getD sl []).take sc ++ (doc0.getD sl []).drop ec)
        :: doc0.drop (sl + 1) from by simp]
    rw [insertAt_shape _ _ _ _ sl sc hPlen hBlen]
    have hfragBF : breakFree (((doc0.getD sl []).take ec).drop sc) :=
      breakFree_sub (subset_trans (List.drop_subset _ _) (List.take_subset _ _)) hLsBF
    rw [splitLines_breakFree _ hfragBF, spliceLines_single]
    rw [take_take_drop _ _ _ hch, List.take_append_drop]
    simpa using doc_recompose doc0 sl hslt
  · have hlt : sl < el := by
      rcases hse with h | ⟨h, _⟩
      · exact h
      · exact absurd h hl
    rw [textAt, if_neg hl, deleteRange, if_neg hl]
    dsimp only
    rw [show doc0.take sl ++
        [(doc0.getD sl []).take sc ++ (doc0.getD el []).drop ec]
        ++ doc0.drop (el + 1)
      = doc0.take sl ++
        ((doc0.getD sl []).take sc ++ (doc0.getD el []).drop ec)
        :: doc0.drop (el + 1) from by simp]
    rw [insertAt_shape _ _ _ _ sl sc hPlen hBlen]
    have hmidsBF : ∀ l ∈ (doc0.drop (sl + 1)).take (el - sl - 1), breakFree l := by
      intro l hlmem
      exact hwf l (List.drop_subset _ _ (List.take_subset _ _ hlmem))
    have hsplit : splitLines (joinLinesN ([(doc0.getD sl []).drop sc]
        ++ (doc0.drop (sl + 1)).take (el - sl - 1) ++ [(doc0.getD el []).take ec]))
        = [(doc0.getD sl []).drop sc] ++ (doc0.drop (sl + 1)).take (el - sl - 1)
          ++ [(doc0.getD el []).take ec] := by
      apply splitLines_joinLinesN
      · simp
      · intro l hlmem
        simp only [List.mem_append, List.mem_singleton] at hlmem
        rcases hlmem with (rfl | hlmem) | rfl
        · exact breakFree_sub (List.drop_subset _ _) hLsBF
        · exact hmidsBF l hlmem
        · exact breakFree_sub (List.take_subset _ _) hLeBF
    rw [hsplit]
    rw [show [(doc0.getD sl []).drop sc] ++ (doc0.drop (sl + 1)).take (el - sl - 1)
          ++ [(doc0.getD el []).take ec]
        = (doc0.getD sl []).drop sc ::
          ((doc0.drop (sl + 1)).take (el - sl - 1) ++ [(doc0.getD el []).take ec])
        from by simp]
    rw [spliceLines_multi _ _ _ _ (by simp), attachLast_append_singleton]
    rw [List.take_append_drop, List.take_append_drop]
    have := doc_recompose_two doc0 sl el hlt hel
    calc doc0.take sl ++ (doc0.getD sl []) ::
          ((doc0.drop (sl + 1)).take (el - sl - 1) ++ [doc0.getD el []])
          ++ doc0.drop (el + 1)
        = doc0.take sl ++ (doc0.getD sl []) ::
          ((doc0.drop (sl + 1)).take (el - sl - 1) ++ (doc0.getD el []) ::
            doc0.drop (el + 1)) := by simp
      _ = doc0 := this

/-! ### The session run and claim C2 -/

theorem updateAnchor_self (self : Session) (others : List Session) (t : List Char) :
    (updateAnchor self others t).1 = { self with anchor := advanceAnchor self.anchor t } := by
  simp only [updateAnchor]
  by_cases hc : 0 < (splitLines t).length - 1
  · rw [if_pos hc]
  · rw [if_neg hc]

/-- A lone session's `appendDelta` run over a list of deltas (session
and document state after each mutation of the per-document queue). -/
def runDeltas (st : Session × Doc) (deltas : List (List Char)) : Session × Doc :=
  deltas.foldl (fun acc d =>
    ((appendDeltaFull acc.1 [] acc.2 d).1, (appendDeltaFull acc.1 [] acc.2 d).2.2.1)) st

/-- The session is live, anchored at `p`, and its inserted text sits
between `p` and its anchor (invariant relative to the base document). -/
def GoodSession (base : Doc) (p : Pos) (s : Session) (doc : Doc) : Prop :=
  s.disposed = false ∧ s.initialAnchor = p ∧
  InsInv base p doc s.anchor s.totalInsertedLength

theorem goodSession_append (base : Doc) (p : Pos) (s : Session) (doc : Doc)
    (hv : Valid base p) (h : GoodSession base p s doc) (d : List Char) :
    GoodSession base p (appendDeltaFull s [] doc d).1 (appendDeltaFull s [] doc d).2.2.1 := by
  by_cases hd : d = []
  · subst hd
    rw [appendDelta_empty_noop]
    exact h
  · rw [appendDeltaFull, if_neg (by simp [h.1]), if_neg hd]
    simp only [updateAnchor_self]
    exact ⟨h.1, h.2.1, insInv_insert base p doc s.anchor s.totalInsertedLength
      hv h.2.2 d hd⟩

theorem goodSession_runDeltas (base : Doc) (p : Pos) (hv : Valid base p)
    (deltas : List (List Char)) :
    ∀ (s : Session) (doc : Doc), GoodSession base p s doc →
    GoodSession base p (runDeltas (s, doc) deltas).1 (runDeltas (s, doc) deltas).2 := by
  induction deltas with
  | nil => exact fun s doc h => h
  | cons d rest ih =>
    intro s doc h
    have hstep := goodSession_append base p s doc hv h d
    have : runDeltas (s, doc) (d :: rest) =
        runDeltas ((appendDeltaFull s [] doc d).1, (appendDeltaFull s [] doc d).2.2.1) rest := by
      rw [runDeltas, List.foldl_cons]
      rfl
    rw [this]
    exact ih _ _ hstep

theorem insertPreSep_good (base : Doc) (p : Pos) (s : Session) (doc : Doc)
    (hv : Valid base p) (h : GoodSession base p s doc) :
    GoodSession base p (insertPreSep s [] doc).1 (insertPreSep s [] doc).2.2 := by
  rw [insertPreSep]
  by_cases hp : s.preSeparator = []
  · rw [if_pos hp]
    exact h
  · rw [if_neg hp]
    simp only [updateAnchor_self]
    exact ⟨h.1, h.2.1, insInv_insert base p doc s.anchor s.totalInsertedLength
      hv h.2.2 s.preSeparator hp⟩

theorem startFull_good (doc0 : Doc) (r : DocRange) (preSep : List Char)
    (hv : Valid (deleteRange doc0 r.start r.stop) r.start) :
    GoodSession (deleteRange doc0 r.start r.stop) r.start
      (startFull (mkSession InsertMode.replace r preSep) [] doc0).1
      (startFull (mkSession InsertMode.replace r preSep) [] doc0).2.2 := by
  have heval : startFull (mkSession InsertMode.replace r preSep) [] doc0 =
      insertPreSep (mkSession InsertMode.replace r preSep)
        (if 0 < r.stop.line - r.start.line then ([] : List Session) else [])
        (deleteRange doc0 r.start r.stop) := rfl
  rw [heval, ite_self]
  exact insertPreSep_good _ _ _ _ hv ⟨rfl, rfl, insInv_init _ _ hv⟩

/-- **C2 amended**: for a *replace-mode* session (where `start()` removed
the original range), after `start` and any sequence of `appendDelta`
calls (multi-line deltas included), `restoreOriginal` — which deletes
the span from `initialAnchor` to the current `anchor` when anything was
inserted, and reinserts the original text at `initialAnchor` — returns
the document to exactly its pre-session state.  Hypotheses: the range is
well-ordered and lies inside the document, whose lines hold no break
characters. -/
theorem restoreOriginal_replace_restores (doc0 : Doc) (r : DocRange) (preSep : List Char)
    (deltas : List (List Char))
    (hwf : ∀ l ∈ doc0, breakFree l)
    (hse : r.start.line < r.stop.line ∨
      (r.start.line = r.stop.line ∧ r.start.char ≤ r.stop.char))
    (hel : r.stop.line < doc0.length)
    (hsc : r.start.char ≤ (doc0.getD r.start.line []).length)
    (hec : r.stop.char ≤ (doc0.getD r.stop.line []).length) :
    restoreOriginalFull
      (runDeltas ((startFull (mkSession InsertMode.replace r preSep) [] doc0).1,
        (startFull (mkSession InsertMode.replace r preSep) [] doc0).2.2) deltas).1
      (runDeltas ((startFull (mkSession InsertMode.replace r preSep) [] doc0).1,
        (startFull (mkSession InsertMode.replace r preSep) [] doc0).2.2) deltas).2
      (textAt doc0 r.start r.stop) = doc0 := by
  have hv := valid_after_delete doc0 r.start r.stop hse hel hsc hec
  have hgood := goodSession_runDeltas (deleteRange doc0 r.start r.stop) r.start hv deltas
    _ _ (startFull_good doc0 r preSep hv)
  rw [restoreOriginalFull]
  rw [hgood.2.1, insInv_delete _ _ _ _ _ hv hgood.2.2]
  exact insert_textAt doc0 r.start r.stop hwf hse hel hsc hec

/-- Witness for C2's amended theorem: a replace-mode session over the
one-line document `"ab"`, pre-separator `" "`, one multi-line delta
`"X\nY"`; `restoreOriginal("ab")` returns the document to `[['a','b']]`. -/
theorem restoreOriginal_replace_restores_witness :
    restoreOriginalFull
      (runDeltas ((startFull (mkSession InsertMode.replace ⟨⟨0, 0⟩, ⟨0, 2⟩⟩ [' ']) []
          [['a', 'b']]).1,
        (startFull (mkSession InsertMode.replace ⟨⟨0, 0⟩, ⟨0, 2⟩⟩ [' ']) []
          [['a', 'b']]).2.2) [['X', '\n', 'Y']]).1
      (runDeltas ((startFull (mkSession InsertMode.replace ⟨⟨0, 0⟩, ⟨0, 2⟩⟩ [' ']) []
          [['a', 'b']]).1,
        (startFull (mkSession InsertMode.replace ⟨⟨0, 0⟩, ⟨0, 2⟩⟩ [' ']) []
          [['a', 'b']]).2.2) [['X', '\n', 'Y']]).2
      (textAt [['a', 'b']] ⟨0, 0⟩ ⟨0, 2⟩) = [['a', 'b']] :=
  restoreOriginal_replace_restores [['a', 'b']] ⟨⟨0, 0⟩, ⟨0, 2⟩⟩ [' '] [['X', '\n', 'Y']]
    (by decide) (by decide) (by decide) (by decide) (by decide)

/-- Counterexample for C2 as stated: for an *append-mode* session the
original text was never deleted, so `restoreOriginal(originalText)`
duplicates it — the document is `"abab"`, not the pre-session `"ab"`.
(Session: append at the end of range `(0,0)-(0,2)` of document `"ab"`,
no separators, one delta `"X"`, then `restoreOriginal("ab")`.) -/
theorem restoreOriginal_append_counterexample :
    restoreOriginalFull
      (runDeltas ((startFull (mkSession InsertMode.append ⟨⟨0, 0⟩, ⟨0, 2⟩⟩ []) []
          [['a', 'b']]).1,
        (startFull (mkSession InsertMode.append ⟨⟨0, 0⟩, ⟨0, 2⟩⟩ []) []
          [['a', 'b']]).2.2) [['X']]).1
      (runDeltas ((startFull (mkSession InsertMode.append ⟨⟨0, 0⟩, ⟨0, 2⟩⟩ []) []
          [['a', 'b']]).1,
        (startFull (mkSession InsertMode.append ⟨⟨0, 0⟩, ⟨0, 2⟩⟩ []) []
          [['a', 'b']]).2.2) [['X']]).2
      (textAt [['a', 'b']] ⟨0, 0⟩ ⟨0, 2⟩) = [['a', 'b', 'a', 'b']] ∧
    ([['a', 'b', 'a', 'b']] : Doc) ≠ [['a', 'b']] := by
  constructor
  · decide
  · decide

end MCAI
